import Mathlib

/-!
Verification of the pdf_processing repository (src/tools/pdf_tools.py,
src/tools/schemas.py, src/agent.py, src/main.py) against its
natural-language specification.

The Python source is shallowly embedded below.  Text is modelled as
`List Char` (Python `str`), pdfplumber cell values as `Option String`
(a cell may be `None`), a document as the page-ordered list of its
tables, and the filesystem / pdfplumber access as a partial map from
paths to documents.  Fallible tool runs are modelled with `Except`:
the Python code returns sentinel error strings, which appear here as
the `Except.error` payloads.
-/

namespace PdfProc

/-- A pdfplumber cell: `None` or a text value. -/
abbrev Cell := Option String

/-- A raw table as returned by `page.extract_tables()`: a list of rows,
row 0 being the header candidate. -/
abbrev RawTable := List (List Cell)

/-- A document as the pipeline reads it: the ordered list of pages, each
page the ordered list of tables pdfplumber detects on it. -/
abbrev Document := List (List RawTable)

/-- Python whitespace for `str.strip()` (the ASCII whitespace chars). -/
def isPySpace (c : Char) : Bool :=
  c == ' ' || c == '\t' || c == '\n' || c == '\r' || c == '\x0b' || c == '\x0c'

/-- Python `s.strip()`: drop whitespace from both ends. -/
def pyStrip (s : List Char) : List Char :=
  (((s.dropWhile isPySpace).reverse).dropWhile isPySpace).reverse

/-- Index of the first occurrence of `pat` in `s`, as Python `s.index(pat)`
computes it (`none` when absent, modelling the raised `ValueError`). -/
def firstOcc (pat : List Char) : List Char → Option Nat
  | [] => if pat.isPrefixOf [] then some 0 else none
  | c :: tl =>
    if pat.isPrefixOf (c :: tl) then some 0
    else (firstOcc pat tl).map (· + 1)

/-- Whether `pat` occurs somewhere in `s` (Python `pat in s`). -/
def hasSubstr (pat s : List Char) : Bool := (firstOcc pat s).isSome

/-- The backtick character (used by the code-fence marker). -/
def tickChar : Char := Char.ofNat 96

/-- The fence removal of pdf_tools.py line 207 (`clean_csv.replace` with the
three-backtick fence and the empty replacement): scans left to right and
deletes every non-overlapping occurrence of the three-character fence
marker. -/
def removeFences : List Char → List Char
  | [] => []
  | [c] => [c]
  | [c, d] => [c, d]
  | c :: d :: e :: rest =>
    if c = tickChar ∧ d = tickChar ∧ e = tickChar then removeFences rest
    else c :: removeFences (d :: e :: rest)

/-- The canonical header token searched for by `FinalOutputTool._run`. -/
def headerTok : List Char := String.toList "primary_submarket"

/-- The placeholder marker checked by `PDFTableExtractorTool._run`
(`'Unnamed' in str(df.columns[0])`). -/
def unnamedTok : List Char := String.toList "Unnamed"

/-! ## PDFTableExtractorTool (src/tools/pdf_tools.py lines 14-48) -/

/-- The header-repair trigger of pdf_tools.py line 37:
`df.columns[0] is None or 'Unnamed' in str(df.columns[0])`. -/
def needsRepair (c : Cell) : Bool :=
  match c with
  | none => true
  | some s => hasSubstr unnamedTok s.toList

/-- pdf_tools.py lines 37-38: when the first column label is `None` or
contains `Unnamed`, `df.rename` relabels every column equal to that first
label to `primary_submarket`. -/
def repairHeaders (hs : List Cell) : List Cell :=
  match hs with
  | [] => []
  | h0 :: _ =>
    if needsRepair h0 then
      hs.map (fun h => if h = h0 then some "primary_submarket" else h)
    else hs

/-- Whether a CSV field needs quoting under the pandas default
QUOTE_MINIMAL policy. -/
def csvNeedsQuote (s : String) : Bool :=
  s.toList.any (fun c => c == ',' || c == '"' || c == '\n' || c == '\r')

/-- Double every quote character in a quoted CSV field. -/
def escQuotes : List Char → List Char
  | [] => []
  | c :: t => if c = '"' then '"' :: '"' :: escQuotes t else c :: escQuotes t

/-- One CSV field as `df.to_csv` renders it: `None` becomes the empty
field, quotes are doubled inside a quoted field. -/
def csvCell (c : Cell) : String :=
  match c with
  | none => ""
  | some s =>
    if csvNeedsQuote s then String.mk ('"' :: escQuotes s.toList ++ [ '"' ]) else s

/-- pdf_tools.py lines 34-40: build the DataFrame from row 0 as header and
the remaining rows as data, repair the first header label, and render
`df.to_csv(index=False)` (header line plus data lines, newline-terminated). -/
def tableToCSV (t : RawTable) : String :=
  match t with
  | [] => ""
  | headers :: rows =>
    String.intercalate "," ((repairHeaders headers).map csvCell) ++ "\n" ++
      String.join (rows.map (fun r => String.intercalate "," (r.map csvCell) ++ "\n"))

/-- The guard of pdf_tools.py line 33: `if table_data and len(table_data) > 1`. -/
def keepGuard (t : RawTable) : Bool := !t.isEmpty && decide (1 < t.length)

/-- pdf_tools.py lines 28-44: the nested page/table loop, appending the
rendered CSV of every table that passes the guard to the accumulator. -/
def extractTables (doc : Document) : List String :=
  doc.foldl
    (fun acc page =>
      page.foldl
        (fun acc2 t => if keepGuard t then acc2 ++ [tableToCSV t] else acc2)
        acc)
    []

/-- `PDFTableExtractorTool._run` (pdf_tools.py lines 20-48).  `fs` models
`os.path.exists` together with `pdfplumber.open`: `none` means the path is
missing or the document is unreadable (the `except` of lines 46-48).  Note
the return type: the tool returns a plain list in every case, with no
error alternative. -/
def PDFTableExtractorTool_run (fs : String → Option Document) (pdf_path : String) :
    List String :=
  if pdf_path = "" then []
  else
    match fs pdf_path with
    | none => []
    | some doc => extractTables doc

/-! ## TableSelectorTool (src/tools/pdf_tools.py lines 51-81) -/

/-- Value of a digit string, as Python `int` parses it. -/
def natFromDigits (ds : List Char) : Nat :=
  ds.foldl (fun a c => a * 10 + (c.toNat - 48)) 0

/-- pdf_tools.py line 75: `int(''.join(filter(str.isdigit, response)))`.
`none` models the `ValueError` raised by `int('')` when the response
contains no digit. -/
def selectorParse (resp : List Char) : Option Nat :=
  let ds := resp.filter Char.isDigit
  if ds.isEmpty then none else some (natFromDigits ds)

/-- Error string of pdf_tools.py line 79. -/
def invalidNumberMsg : String := "Error: LLM returned an invalid table number."

/-- Error string of pdf_tools.py line 81 (apostrophe elided). -/
def couldNotDetermineMsg : String :=
  "Error: Could not determine the correct table from the LLM response."

/-- `TableSelectorTool._run` (pdf_tools.py lines 58-81).  The oracle
response `resp` is the text returned by `self.llm.invoke(prompt)`.  The
code computes `table_index = int(digits) - 1` and returns
`tables_as_csv[table_index]` when `0 <= table_index < len(tables_as_csv)`;
its sentinel error-string returns are modelled as `Except.error`. -/
def TableSelectorTool_run (tables_as_csv : List String) (resp : List Char) :
    Except String String :=
  match selectorParse resp with
  | none => Except.error couldNotDetermineMsg
  | some n =>
    let idx : Int := (n : Int) - 1
    if h : 0 ≤ idx ∧ idx < (tables_as_csv.length : Int) then
      Except.ok (tables_as_csv.get ⟨idx.toNat, by omega⟩)
    else Except.error invalidNumberMsg

/-! ## FinalOutputTool (src/tools/pdf_tools.py lines 194-214) -/

/-- Error string of pdf_tools.py line 214. -/
def headerNotFoundMsg : String :=
  "Error: Could not find the CSV header in the final output."

/-- `FinalOutputTool._run` (pdf_tools.py lines 200-214): find the first
occurrence of `primary_submarket`, keep everything from it on, delete the
code-fence markers, strip, and return; the `except ValueError` sentinel
return is modelled as `Except.error`. -/
def FinalOutputTool_run (generated_csv : List Char) : Except String (List Char) :=
  match firstOcc headerTok generated_csv with
  | some i => Except.ok (pyStrip (removeFences (generated_csv.drop i)))
  | none => Except.error headerNotFoundMsg

/-! ## Pipeline Controller (src/agent.py lines 33-41, src/main.py lines 10-40) -/

/-- The output LangChain AgentExecutor substitutes when the iteration
ceiling is exceeded (the `max_iterations=15` configuration of
src/agent.py line 38). -/
def stopMessage : List Char :=
  String.toList "Agent stopped due to iteration limit or time limit."

/-- The iteration ceiling configured in src/agent.py line 38. -/
def max_iterations : Nat := 15

/-- Modelled from the spec: the bounded agent loop itself lives in the
external LangChain `AgentExecutor`, not under src/; per spec section 4.7 it
is a linear loop with an integer ceiling on stage invocations.  `step i`
is the i-th stage invocation: `some out` means the agent finished with
output `out`, `none` means it continues.  The result pairs the final
output with the number of invocations performed; when the budget runs out
the LangChain stop message is returned as the output. -/
def agentRun (step : Nat → Option (List Char)) : Nat → Nat → List Char × Nat
  | 0, used => (stopMessage, used)
  | n + 1, used =>
    match step used with
    | some out => (out, used + 1)
    | none => agentRun step n (used + 1)

/-- The result-validation part of `process_pdf_with_agent`
(src/main.py lines 22-33): the agent output counts as a success only when
it is a non-empty string whose stripped form starts with
`primary_submarket`; everything else yields `None`. -/
def process_pdf_with_agent (output : List Char) : Option (List Char) :=
  if !output.isEmpty && headerTok.isPrefixOf (pyStrip output) then some output
  else none

/-! ## Value Cleaner

Modelled from the spec: the per-cell cleaning rules of spec section 4.5
(quote stripping, currency/comma stripping, parenthesis and trailing-minus
negatives, percentage-to-decimal for `vacancy_q`, empty-value policy) are
not implemented as code under src/; `CSVGeneratorTool._run`
(pdf_tools.py lines 91-191) delegates them to the external oracle as
prompt text.  The definitions below follow the spec wording, applying the
five rules in the stated order. -/

/-- Rule 1: strip surrounding quote characters from the cell. -/
def stripQuotes (s : List Char) : List Char :=
  (((s.dropWhile (· == '"')).reverse).dropWhile (· == '"')).reverse

/-- The characters a numeric-looking cell may consist of. -/
def allowedNumChar (c : Char) : Bool :=
  c.isDigit || c == '$' || c == ',' || c == '.' || c == '(' || c == ')' ||
    c == '-' || c == '%'

/-- A numeric-looking cell: non-empty, drawn from the numeric alphabet,
containing at least one digit. -/
def numericLike (s : List Char) : Bool :=
  !s.isEmpty && s.all allowedNumChar && s.any Char.isDigit

/-- Rule 2: strip currency symbols and thousands-separator commas from
numeric-looking cells. -/
def stripCurrency (s : List Char) : List Char :=
  if numericLike s then s.filter (fun c => !(c == '$' || c == ',')) else s

/-- Characters of the number inside a parenthesis-negative or
trailing-minus value. -/
def innerNumChar (c : Char) : Bool := c.isDigit || c == '.'

/-- Trigger of the parenthesis-negative rule: `(123)`. -/
def pnCond (s : List Char) : Bool :=
  s.head? == some '(' && s.getLast? == some ')' &&
    !((s.drop 1).dropLast).isEmpty && ((s.drop 1).dropLast).all innerNumChar

/-- Rule 3a: a value written as `(123)` becomes `-123`. -/
def parenNeg (s : List Char) : List Char :=
  if pnCond s then '-' :: (s.drop 1).dropLast else s

/-- Trigger of the trailing-minus rule: `123-`. -/
def tmCond (s : List Char) : Bool :=
  s.getLast? == some '-' && !(s.dropLast).isEmpty && (s.dropLast).all innerNumChar

/-- Rule 3b: a value written with a trailing minus (`123-`) becomes `-123`. -/
def trailingMinus (s : List Char) : List Char :=
  if tmCond s then '-' :: s.dropLast else s

/-- A decimal numeral: non-empty, digits with at most one decimal point,
at least one digit. -/
def validDecimal (s : List Char) : Bool :=
  !s.isEmpty && s.all innerNumChar && s.any Char.isDigit &&
    decide ((s.filter (fun c => c == '.')).length ≤ 1)

/-- Divide a decimal numeral by 100 (shift the decimal point two places
left), producing the decimal-fraction string. -/
def divByHundred (body : List Char) : List Char :=
  let intPart := body.takeWhile (fun c => !(c == '.'))
  let fracPart := (body.dropWhile (fun c => !(c == '.'))).drop 1
  let digits := intPart ++ fracPart
  let p := intPart.length
  if p ≤ 2 then '0' :: '.' :: (List.replicate (2 - p) '0' ++ digits)
  else digits.take (p - 2) ++ '.' :: digits.drop (p - 2)

/-- The digit characters of a decimal numeral (integer digits then
fraction digits), as `divByHundred` assembles them. -/
def decDigits (body : List Char) : List Char :=
  body.takeWhile (fun c => !(c == '.')) ++
    ((body.dropWhile (fun c => !(c == '.'))).drop 1)

/-- Trigger of the percentage rule: a `vacancy_q` cell ending in `%` whose
body is a decimal numeral. -/
def pcCond (isVacancy : Bool) (s : List Char) : Bool :=
  isVacancy && s.getLast? == some '%' && validDecimal s.dropLast

/-- Rule 4: percentage values (in `vacancy_q` only) become a decimal
fraction. -/
def percentRule (isVacancy : Bool) (s : List Char) : List Char :=
  if pcCond isVacancy s then divByHundred s.dropLast else s

/-- Trigger of the empty-value rule: `N/A`, `-`, or whitespace-only. -/
def msCond (s : List Char) : Bool :=
  s == [ 'N', '/', 'A' ] || s == [ '-' ] || s.all isPySpace

/-- Rule 5: `N/A`, `-`, and whitespace-only cells become the empty string. -/
def missingRule (s : List Char) : List Char :=
  if msCond s then [] else s

/-- The per-cell cleaning transform of spec section 4.5: the five rules,
in order. -/
def cleanCell (isVacancy : Bool) (s : List Char) : List Char :=
  missingRule (percentRule isVacancy (trailingMinus (parenNeg (stripCurrency (stripQuotes s)))))

/-- A mapped table: the canonical header names plus the data rows. -/
structure MappedTable where
  header : List String
  rows : List (List (List Char))
deriving DecidableEq

/-- Clean one row cell-by-cell; the percentage rule applies to the cell
under the `vacancy_q` column. -/
def cleanRow (header : List String) (row : List (List Char)) : List (List Char) :=
  List.zipWith (fun name cell => cleanCell (name == "vacancy_q") cell) header row

/-- The Value Cleaner over a whole mapped table. -/
def cleanTable (t : MappedTable) : MappedTable :=
  ⟨t.header, t.rows.map (cleanRow t.header)⟩

/-- Filesystem with no readable document at any path. -/
def emptyFS : String → Option Document := fun _ => none

/-- Filesystem holding one readable document with zero pages. -/
def zeroTableFS : String → Option Document :=
  fun p => if p = "doc.pdf" then some [] else none

/-- Shape invariant satisfied by every non-empty `cleanCell` output: a
string in this shape is left unchanged by each of the five cleaning
rules, which is the core of the idempotence proof. -/
def CleanOut (isVacancy : Bool) (y : List Char) : Prop :=
  (∀ c, y.head? = some c → (c == '"') = false) ∧
  (∀ c, y.getLast? = some c → (c == '"') = false) ∧
  (y.all (fun c => !(c == '$' || c == ',')) = true ∨ numericLike y = false) ∧
  pnCond y = false ∧ tmCond y = false ∧ pcCond isVacancy y = false ∧ msCond y = false

/-! ## Auxiliary list lemmas -/

theorem mem_of_head?_eq {α : Type _} {l : List α} {c : α} (h : l.head? = some c) :
    c ∈ l := by
  cases l with
  | nil => simp at h
  | cons a t =>
    simp only [List.head?] at h
    injection h with h
    simp [h]

theorem mem_of_getLast?_eq {α : Type _} {l : List α} {c : α} (h : l.getLast? = some c) :
    c ∈ l := by
  rw [List.getLast?_eq_head?_reverse] at h
  have := mem_of_head?_eq h
  simpa using this

theorem getLast?_cons_ne {α : Type _} (c : α) (l : List α) (h : l ≠ []) :
    (c :: l).getLast? = l.getLast? := by
  cases l with
  | nil => exact absurd rfl h
  | cons a t => exact List.getLast?_cons_cons

theorem head?_dropWhile_not {α : Type _} (p : α → Bool) (l : List α) {c : α}
    (h : (l.dropWhile p).head? = some c) : p c = false := by
  induction l with
  | nil => simp [List.dropWhile] at h
  | cons a t ih =>
    rw [List.dropWhile_cons] at h
    by_cases hp : p a = true
    · rw [if_pos hp] at h; exact ih h
    · rw [if_neg hp] at h
      simp only [List.head?] at h
      injection h with h
      subst h
      exact Bool.not_eq_true _ ▸ (by simpa using hp)

theorem getLast?_dropWhile {α : Type _} (p : α → Bool) (l : List α)
    (h : l.dropWhile p ≠ []) : (l.dropWhile p).getLast? = l.getLast? := by
  induction l with
  | nil => simp [List.dropWhile] at h
  | cons a t ih =>
    rw [List.dropWhile_cons] at h ⊢
    by_cases hp : p a = true
    · rw [if_pos hp] at h ⊢
      rw [ih h]
      have ht : t ≠ [] := by
        intro he
        rw [he] at h
        simp [List.dropWhile] at h
      rw [getLast?_cons_ne a t ht]
    · rw [if_neg hp]

theorem dropWhile_all_not {α : Type _} (p : α → Bool) (l : List α)
    (h : ∀ c ∈ l, p c = false) : l.dropWhile p = l := by
  cases l with
  | nil => rfl
  | cons a t =>
    rw [List.dropWhile_cons, if_neg]
    simp [h a (by simp)]

theorem isPrefixOf_iff_append : ∀ (t s : List Char), t.isPrefixOf s = true ↔ ∃ r, s = t ++ r
  | [], s => by simp [List.isPrefixOf]
  | a :: t, [] => by simp [List.isPrefixOf]
  | a :: t, b :: s => by
    simp only [List.isPrefixOf, Bool.and_eq_true, beq_iff_eq]
    constructor
    · rintro ⟨rfl, h⟩
      obtain ⟨r, rfl⟩ := (isPrefixOf_iff_append t s).1 h
      exact ⟨r, rfl⟩
    · rintro ⟨r, h⟩
      injection h with h1 h2
      subst h1
      exact ⟨rfl, (isPrefixOf_iff_append t s).2 ⟨r, h2⟩⟩

theorem isPrefixOf_append_self (t r : List Char) : t.isPrefixOf (t ++ r) = true :=
  (isPrefixOf_iff_append t (t ++ r)).2 ⟨r, rfl⟩

/-! ## Extractor lemmas -/

theorem keepGuard_eq (t : RawTable) : keepGuard t = decide (2 ≤ t.length) := by
  cases t <;> rfl

theorem extractPage_foldl (page : List RawTable) (acc : List String) :
    page.foldl (fun acc2 t => if keepGuard t then acc2 ++ [tableToCSV t] else acc2) acc
      = acc ++ (page.filter keepGuard).map tableToCSV := by
  induction page generalizing acc with
  | nil => simp
  | cons t pg ih =>
    rw [List.foldl_cons]
    by_cases h : keepGuard t = true
    · rw [if_pos h, ih]
      simp [List.filter_cons, h]
    · rw [if_neg h, ih]
      simp [List.filter_cons, h]

theorem extractTables_foldl (doc : Document) (acc : List String) :
    doc.foldl
        (fun a page =>
          page.foldl (fun a2 t => if keepGuard t then a2 ++ [tableToCSV t] else a2) a)
        acc
      = acc ++ (doc.map (fun page => (page.filter keepGuard).map tableToCSV)).flatten := by
  induction doc generalizing acc with
  | nil => simp
  | cons pg doc ih =>
    rw [List.foldl_cons, extractPage_foldl, ih]
    simp [List.append_assoc]

theorem extractTables_eq_flatten (doc : Document) :
    extractTables doc
      = (doc.map (fun page => (page.filter keepGuard).map tableToCSV)).flatten := by
  rw [extractTables, extractTables_foldl, List.nil_append]

/-! ## Controller lemmas -/

theorem agentRun_count (step : Nat → Option (List Char)) :
    ∀ (b u : Nat), (agentRun step b u).2 ≤ u + b := by
  intro b
  induction b with
  | zero => intro u; simp [agentRun]
  | succ n ih =>
    intro u
    rw [agentRun]
    cases hs : step u with
    | some out => simp
    | none =>
      have := ih (u + 1)
      simp only []
      omega

theorem agentRun_exhaust (step : Nat → Option (List Char)) :
    ∀ (b u : Nat), (∀ i, u ≤ i → i < u + b → step i = none) →
      (agentRun step b u).1 = stopMessage := by
  intro b
  induction b with
  | zero => intro u _; rfl
  | succ n ih =>
    intro u h
    rw [agentRun]
    rw [h u (le_refl u) (by omega)]
    exact ih (u + 1) (fun i h1 h2 => h i (by omega) (by omega))

/-! ## Finalizer lemmas -/

theorem firstOcc_isPrefixOf_drop (pat : List Char) :
    ∀ (s : List Char) (i : Nat), firstOcc pat s = some i →
      pat.isPrefixOf (s.drop i) = true := by
  intro s
  induction s with
  | nil =>
    intro i h
    rw [firstOcc] at h
    by_cases hp : pat.isPrefixOf [] = true
    · rw [if_pos hp] at h
      injection h with h
      subst h
      exact hp
    · rw [if_neg hp] at h
      exact absurd h (by simp)
  | cons c tl ih =>
    intro i h
    rw [firstOcc] at h
    by_cases hp : pat.isPrefixOf (c :: tl) = true
    · rw [if_pos hp] at h
      injection h with h
      subst h
      exact hp
    · rw [if_neg hp] at h
      cases hfo : firstOcc pat tl with
      | none => rw [hfo] at h; exact absurd h (by simp)
      | some j =>
        rw [hfo] at h
        simp only [Option.map_some'] at h
        injection h with h
        subst h
        exact ih j hfo

theorem removeFences_cons_ne (c : Char) (l : List Char) (h : c ≠ tickChar) :
    removeFences (c :: l) = c :: removeFences l := by
  rcases l with _ | ⟨d, _ | ⟨e, rest⟩⟩
  · rfl
  · rfl
  · rw [removeFences, if_neg (fun hc => h hc.1)]

theorem removeFences_append_no_tick (tok rest : List Char)
    (h : ∀ c ∈ tok, c ≠ tickChar) :
    removeFences (tok ++ rest) = tok ++ removeFences rest := by
  induction tok with
  | nil => simp
  | cons c tk ih =>
    rw [List.cons_append, removeFences_cons_ne c _ (h c (by simp)),
      ih (fun x hx => h x (by simp [hx]))]
    rfl

theorem pyStrip_keeps_front (tok rest : List Char) (hne : tok ≠ [])
    (hws : ∀ c ∈ tok, isPySpace c = false) :
    ∃ mid, pyStrip (tok ++ rest) = tok ++ mid := by
  have h1 : (tok ++ rest).dropWhile isPySpace = tok ++ rest := by
    cases tok with
    | nil => exact absurd rfl hne
    | cons c tk =>
      rw [List.cons_append, List.dropWhile_cons, if_neg]
      simp [hws c (by simp)]
  rw [pyStrip, h1, List.reverse_append, List.dropWhile_append]
  by_cases he : ((rest.reverse).dropWhile isPySpace).isEmpty = true
  · rw [if_pos he, dropWhile_all_not _ _ (fun c hc => hws c (by simpa using hc))]
    exact ⟨[], by rw [List.reverse_reverse, List.append_nil]⟩
  · rw [if_neg he, List.reverse_append, List.reverse_reverse]
    exact ⟨(rest.reverse.dropWhile isPySpace).reverse, rfl⟩

theorem headerTok_prefix_final (g : List Char) (i : Nat)
    (h : firstOcc headerTok g = some i) :
    headerTok.isPrefixOf (pyStrip (removeFences (g.drop i))) = true := by
  have hp := firstOcc_isPrefixOf_drop headerTok g i h
  obtain ⟨r, hr⟩ := (isPrefixOf_iff_append _ _).1 hp
  rw [hr, removeFences_append_no_tick _ _ (by decide)]
  obtain ⟨mid, hm⟩ := pyStrip_keeps_front headerTok (removeFences r) (by decide) (by decide)
  rw [hm]
  exact isPrefixOf_append_self _ _

/-! ## Value Cleaner lemmas -/

theorem neTrue_eq_false {b : Bool} (h : ¬b = true) : b = false := by
  cases b with
  | false => rfl
  | true => exact absurd rfl h

theorem false_ne_true {b : Bool} (h : b = false) : ¬b = true := by
  intro hc
  rw [h] at hc
  exact absurd hc (by simp)

theorem beq_false_of_pred (p : Char → Bool) (d c : Char) (h : p c = true)
    (hd : p d = false) : (c == d) = false := by
  by_cases hq : (c == d) = true
  · have : c = d := by simpa using hq
    subst this
    rw [h] at hd
    exact absurd hd (by simp)
  · exact neTrue_eq_false hq

theorem isDigit_innerNum (c : Char) (h : c.isDigit = true) : innerNumChar c = true := by
  rw [innerNumChar, h]
  rfl

theorem innerNum_allowed (c : Char) (h : innerNumChar c = true) :
    allowedNumChar c = true := by
  rw [innerNumChar, Bool.or_eq_true] at h
  rcases h with h | h <;> simp [allowedNumChar, h]

theorem innerNum_keepF (c : Char) (h : innerNumChar c = true) :
    (!(c == '$' || c == ',')) = true := by
  rw [beq_false_of_pred innerNumChar '$' c h (by decide),
    beq_false_of_pred innerNumChar ',' c h (by decide)]
  rfl

theorem innerNum_not_space (c : Char) (h : innerNumChar c = true) :
    isPySpace c = false := by
  rw [isPySpace,
    beq_false_of_pred innerNumChar ' ' c h (by decide),
    beq_false_of_pred innerNumChar '\t' c h (by decide),
    beq_false_of_pred innerNumChar '\n' c h (by decide),
    beq_false_of_pred innerNumChar '\r' c h (by decide),
    beq_false_of_pred innerNumChar '\x0b' c h (by decide),
    beq_false_of_pred innerNumChar '\x0c' c h (by decide)]
  rfl

theorem allowed_not_quote (c : Char) (h : allowedNumChar c = true) :
    (c == '"') = false :=
  beq_false_of_pred allowedNumChar '"' c h (by decide)

theorem exists_head? {α : Type _} (l : List α) (h : l ≠ []) :
    ∃ c, l.head? = some c := by
  cases l with
  | nil => exact absurd rfl h
  | cons a t => exact ⟨a, rfl⟩

theorem exists_getLast? {α : Type _} : ∀ (l : List α), l ≠ [] → ∃ c, l.getLast? = some c
  | [], h => absurd rfl h
  | [a], _ => ⟨a, rfl⟩
  | a :: b :: t, _ => by
    rw [List.getLast?_cons_cons]
    exact exists_getLast? (b :: t) (by simp)

theorem stripQuotes_head (s : List Char) {c : Char}
    (h : (stripQuotes s).head? = some c) : (c == '"') = false := by
  rw [stripQuotes, List.head?_reverse] at h
  have hne : (s.dropWhile (· == '"')).reverse.dropWhile (· == '"') ≠ [] := by
    intro he
    rw [he] at h
    simp at h
  rw [getLast?_dropWhile _ _ hne, List.getLast?_reverse] at h
  exact head?_dropWhile_not (fun x => x == '"') _ h

theorem stripQuotes_last (s : List Char) {c : Char}
    (h : (stripQuotes s).getLast? = some c) : (c == '"') = false := by
  rw [stripQuotes, List.getLast?_reverse] at h
  exact head?_dropWhile_not (fun x => x == '"') _ h

theorem stripQuotes_eq_self (s : List Char)
    (h1 : ∀ c, s.head? = some c → (c == '"') = false)
    (h2 : ∀ c, s.getLast? = some c → (c == '"') = false) :
    stripQuotes s = s := by
  have ha : s.dropWhile (· == '"') = s := by
    cases s with
    | nil => rfl
    | cons a t =>
      rw [List.dropWhile_cons, if_neg]
      simp [h1 a rfl]
  have hb : s.reverse.dropWhile (· == '"') = s.reverse := by
    cases hrev : s.reverse with
    | nil => rfl
    | cons a t =>
      rw [List.dropWhile_cons, if_neg]
      have hga : s.getLast? = some a := by
        rw [List.getLast?_eq_head?_reverse, hrev]
        rfl
      simp [h2 a hga]
  rw [stripQuotes, ha, hb, List.reverse_reverse]

theorem cleanCell_fix (v : Bool) (y : List Char) (h : CleanOut v y) :
    cleanCell v y = y := by
  obtain ⟨h1, h2, h3, h4, h5, h6, h7⟩ := h
  rw [cleanCell, stripQuotes_eq_self y h1 h2]
  have hsc : stripCurrency y = y := by
    rcases h3 with h3 | h3
    · rw [stripCurrency]
      by_cases hn : numericLike y = true
      · rw [if_pos hn]
        exact List.filter_eq_self.2 (List.all_eq_true.1 h3)
      · rw [if_neg hn]
    · rw [stripCurrency, if_neg (by simp [h3])]
  rw [hsc, parenNeg, if_neg (by simp [h4]), trailingMinus, if_neg (by simp [h5]),
    percentRule, if_neg (by simp [h6]), missingRule, if_neg (by simp [h7])]

/-- Every string of the form `-w` with `w` a non-empty digit-or-dot word
is a fixed point of all five cleaning rules. -/
theorem cleanOut_neg_shape (v : Bool) (w : List Char) (hw : w ≠ [])
    (hall : w.all innerNumChar = true) : CleanOut v ('-' :: w) := by
  obtain ⟨lc, hlc⟩ := exists_getLast? w hw
  have hlcnum : innerNumChar lc = true :=
    List.all_eq_true.1 hall lc (mem_of_getLast?_eq hlc)
  have hgl : ('-' :: w).getLast? = some lc := by
    rw [getLast?_cons_ne _ _ hw, hlc]
  refine ⟨?_, ?_, Or.inl ?_, ?_, ?_, ?_, ?_⟩
  · intro c hc
    injection hc with hc
    subst hc
    rfl
  · intro c hc
    rw [hgl] at hc
    injection hc with hc
    subst hc
    exact beq_false_of_pred innerNumChar '"' lc hlcnum (by decide)
  · rw [List.all_cons]
    refine Bool.and_eq_true _ _ ▸ ⟨rfl, ?_⟩
    exact List.all_eq_true.2
      (fun c hc => innerNum_keepF c (List.all_eq_true.1 hall c hc))
  · have h0 : (('-' :: w).head? == some '(') = false := rfl
    rw [pnCond, h0]
    simp
  · have h0 : (('-' :: w).getLast? == some '-') = false := by
      rw [hgl]
      show (lc == '-') = false
      exact beq_false_of_pred innerNumChar '-' lc hlcnum (by decide)
    rw [tmCond, h0]
    simp
  · have h0 : (('-' :: w).getLast? == some '%') = false := by
      rw [hgl]
      show (lc == '%') = false
      exact beq_false_of_pred innerNumChar '%' lc hlcnum (by decide)
    rw [pcCond, h0]
    simp
  · have hB : (w == ([] : List Char)) = false := by
      cases w with
      | nil => exact absurd rfl hw
      | cons a t => rfl
    rw [msCond]
    show ((w == ([] : List Char)) || ('-' :: w).all isPySpace) = false
    have hsp : (('-' :: w).all isPySpace) = false := rfl
    rw [hB, hsp]
    rfl

theorem validDecimal_digits (body : List Char) (h : validDecimal body = true) :
    (∀ c ∈ decDigits body, c.isDigit = true) ∧ decDigits body ≠ [] := by
  rw [validDecimal] at h
  simp only [Bool.and_eq_true, decide_eq_true_eq] at h
  obtain ⟨⟨⟨hne, hall⟩, hany⟩, hdot⟩ := h
  have hallm : ∀ c ∈ body, innerNumChar c = true := List.all_eq_true.1 hall
  have hsplit := List.takeWhile_append_dropWhile (fun c => !(c == '.')) body
  have hint : ∀ c ∈ body.takeWhile (fun c => !(c == '.')), c.isDigit = true := by
    intro c hc
    have hnd : (!(c == '.')) = true :=
      @List.mem_takeWhile_imp Char (fun c => !(c == '.')) body c hc
    have hin : innerNumChar c = true :=
      hallm c (by rw [← hsplit]; exact List.mem_append_left _ hc)
    rw [innerNumChar, Bool.or_eq_true] at hin
    rcases hin with hd | hd
    · exact hd
    · rw [hd] at hnd
      exact absurd hnd (by decide)
  cases hdw : body.dropWhile (fun c => !(c == '.')) with
  | nil =>
    constructor
    · intro c hc
      rcases List.mem_append.1 hc with hc | hc
      · exact hint c hc
      · rw [hdw] at hc
        simp at hc
    · obtain ⟨c, hcm, hcd⟩ := List.any_eq_true.1 hany
      rw [← hsplit] at hcm
      rcases List.mem_append.1 hcm with hm | hm
      · exact List.ne_nil_of_mem (List.mem_append_left _ hm)
      · rw [hdw] at hm
        simp at hm
  | cons d rest =>
    have hd_dot : (d == '.') = true := by
      have hh : (body.dropWhile (fun c => !(c == '.'))).head? = some d := by
        rw [hdw]
        rfl
      have := head?_dropWhile_not (fun c => !(c == '.')) body hh
      simpa using this
    have hfrac_nodot : ∀ c ∈ rest, (c == '.') = false := by
      have hfb : body.filter (fun c => c == '.')
          = (body.takeWhile (fun c => !(c == '.'))).filter (fun c => c == '.')
            ++ (body.dropWhile (fun c => !(c == '.'))).filter (fun c => c == '.') := by
        rw [← List.filter_append, hsplit]
      have hfint :
          (body.takeWhile (fun c => !(c == '.'))).filter (fun c => c == '.') = [] := by
        rw [List.filter_eq_nil_iff]
        intro a ha
        have := List.mem_takeWhile_imp ha
        simpa using this
      have hcount : (body.filter (fun c => c == '.')).length ≤ 1 := hdot
      rw [hfb, hfint, List.nil_append, hdw, List.filter_cons, if_pos hd_dot] at hcount
      simp only [List.length_cons] at hcount
      have hlen0 : (rest.filter (fun c => c == '.')).length = 0 := by omega
      have hnil : rest.filter (fun c => c == '.') = [] := List.length_eq_zero.1 hlen0
      intro c hc
      by_cases hq : (c == '.') = true
      · have hcf : c ∈ rest.filter (fun c => c == '.') := List.mem_filter.2 ⟨hc, hq⟩
        rw [hnil] at hcf
        simp at hcf
      · exact neTrue_eq_false hq
    have hfrac : ∀ c ∈ (body.dropWhile (fun c => !(c == '.'))).drop 1,
        c.isDigit = true := by
      intro c hc
      rw [hdw, List.drop_succ_cons, List.drop_zero] at hc
      have hin : innerNumChar c = true := by
        refine hallm c ?_
        rw [← hsplit]
        refine List.mem_append_right _ ?_
        rw [hdw]
        exact List.mem_cons_of_mem d hc
      rw [innerNumChar, Bool.or_eq_true] at hin
      rcases hin with hdg | hdg
      · exact hdg
      · rw [hfrac_nodot c hc] at hdg
        exact absurd hdg (by simp)
    constructor
    · intro c hc
      rcases List.mem_append.1 hc with hc | hc
      · exact hint c hc
      · exact hfrac c hc
    · obtain ⟨c, hcm, hcd⟩ := List.any_eq_true.1 hany
      rw [← hsplit] at hcm
      rcases List.mem_append.1 hcm with hm | hm
      · exact List.ne_nil_of_mem (List.mem_append_left _ hm)
      · rw [hdw] at hm
        rcases List.mem_cons.1 hm with rfl | hm
        · have hcdot : c = '.' := by simpa using hd_dot
          rw [hcdot] at hcd
          exact absurd hcd (by decide)
        · have hmm : c ∈ (body.dropWhile (fun c => !(c == '.'))).drop 1 := by
            rw [hdw]
            simpa using hm
          exact List.ne_nil_of_mem (List.mem_append_right _ hmm)

theorem divByHundred_eq (body : List Char) :
    divByHundred body
      = if (body.takeWhile (fun c => !(c == '.'))).length ≤ 2 then
          '0' :: '.' ::
            (List.replicate (2 - (body.takeWhile (fun c => !(c == '.'))).length) '0'
              ++ decDigits body)
        else
          (decDigits body).take ((body.takeWhile (fun c => !(c == '.'))).length - 2)
            ++ '.' :: (decDigits body).drop
              ((body.takeWhile (fun c => !(c == '.'))).length - 2) := rfl

theorem divByHundred_shape (body : List Char) (h : validDecimal body = true) :
    (∀ c ∈ divByHundred body, innerNumChar c = true) ∧
    (∃ h0, (divByHundred body).head? = some h0 ∧ h0.isDigit = true) ∧
    (∃ lc, (divByHundred body).getLast? = some lc ∧ lc.isDigit = true) := by
  obtain ⟨hdig, hne⟩ := validDecimal_digits body h
  obtain ⟨lc, hlc⟩ := exists_getLast? (decDigits body) hne
  have hlcd : lc.isDigit = true := hdig lc (mem_of_getLast?_eq hlc)
  rw [divByHundred_eq]
  by_cases hp : (body.takeWhile (fun c => !(c == '.'))).length ≤ 2
  · rw [if_pos hp]
    refine ⟨?_, ⟨'0', rfl, by decide⟩, ⟨lc, ?_, hlcd⟩⟩
    · intro c hc
      rcases List.mem_cons.1 hc with rfl | hc
      · decide
      · rcases List.mem_cons.1 hc with rfl | hc
        · decide
        · rcases List.mem_append.1 hc with hc | hc
          · rw [List.eq_of_mem_replicate hc]
            decide
          · exact isDigit_innerNum c (hdig c hc)
    · rw [getLast?_cons_ne _ _ (by simp),
        getLast?_cons_ne _ _ (fun hnil => hne (List.append_eq_nil.1 hnil).2),
        List.getLast?_append, hlc]
      rfl
  · rw [if_neg hp]
    have hp3 : 3 ≤ (body.takeWhile (fun c => !(c == '.'))).length := by omega
    have hple : (body.takeWhile (fun c => !(c == '.'))).length
        ≤ (decDigits body).length := by
      rw [decDigits, List.length_append]
      omega
    obtain ⟨h0, hh0⟩ := exists_head? (decDigits body) hne
    have hh0d : h0.isDigit = true := hdig h0 (mem_of_head?_eq hh0)
    have hd_ne : (decDigits body).drop
        ((body.takeWhile (fun c => !(c == '.'))).length - 2) ≠ [] := by
      rw [← List.length_pos, List.length_drop]
      omega
    refine ⟨?_, ⟨h0, ?_, hh0d⟩, ⟨lc, ?_, hlcd⟩⟩
    · intro c hc
      rcases List.mem_append.1 hc with hc | hc
      · exact isDigit_innerNum c (hdig c (List.take_subset _ _ hc))
      · rcases List.mem_cons.1 hc with rfl | hc
        · decide
        · exact isDigit_innerNum c (hdig c (List.drop_subset _ _ hc))
    · rw [List.head?_append, List.head?_take, if_neg (by omega), hh0]
      rfl
    · rw [List.getLast?_append, getLast?_cons_ne _ _ hd_ne, List.getLast?_drop,
        if_neg (by omega), hlc]
      rfl

/-- Every `divByHundred` output shape (digits and one dot, digit at both
ends) is a fixed point of all five cleaning rules. -/
theorem cleanOut_digit_shape (v : Bool) (z : List Char)
    (hall : ∀ c ∈ z, innerNumChar c = true)
    (hh : ∃ h0, z.head? = some h0 ∧ h0.isDigit = true)
    (hl : ∃ lc, z.getLast? = some lc ∧ lc.isDigit = true) : CleanOut v z := by
  obtain ⟨h0, hh0, hh0d⟩ := hh
  obtain ⟨lc, hlc, hlcd⟩ := hl
  have hh0n : innerNumChar h0 = true := isDigit_innerNum h0 hh0d
  have hlcn : innerNumChar lc = true := isDigit_innerNum lc hlcd
  refine ⟨?_, ?_, Or.inl ?_, ?_, ?_, ?_, ?_⟩
  · intro c hc
    rw [hh0] at hc
    injection hc with hc
    exact hc ▸ beq_false_of_pred innerNumChar '"' h0 hh0n (by decide)
  · intro c hc
    rw [hlc] at hc
    injection hc with hc
    exact hc ▸ beq_false_of_pred innerNumChar '"' lc hlcn (by decide)
  · exact List.all_eq_true.2 (fun c hc => innerNum_keepF c (hall c hc))
  · have hq : (z.head? == some '(') = false := by
      rw [hh0]
      show (h0 == '(') = false
      exact beq_false_of_pred innerNumChar '(' h0 hh0n (by decide)
    rw [pnCond, hq]
    simp
  · have hq : (z.getLast? == some '-') = false := by
      rw [hlc]
      show (lc == '-') = false
      exact beq_false_of_pred innerNumChar '-' lc hlcn (by decide)
    rw [tmCond, hq]
    simp
  · have hq : (z.getLast? == some '%') = false := by
      rw [hlc]
      show (lc == '%') = false
      exact beq_false_of_pred innerNumChar '%' lc hlcn (by decide)
    rw [pcCond, hq]
    simp
  · have hNA : (z == [ 'N', '/', 'A' ]) = false := by
      by_cases hq : (z == [ 'N', '/', 'A' ]) = true
      · have hz : z = [ 'N', '/', 'A' ] := by simpa using hq
        have := hall 'N' (by rw [hz]; simp)
        exact absurd this (by decide)
      · exact neTrue_eq_false hq
    have hDash : (z == [ '-' ]) = false := by
      by_cases hq : (z == [ '-' ]) = true
      · have hz : z = [ '-' ] := by simpa using hq
        have := hall '-' (by rw [hz]; simp)
        exact absurd this (by decide)
      · exact neTrue_eq_false hq
    have hsp : z.all isPySpace = false := by
      by_cases hq : z.all isPySpace = true
      · have := List.all_eq_true.1 hq lc (mem_of_getLast?_eq hlc)
        rw [innerNum_not_space lc hlcn] at this
        exact absurd this (by simp)
      · exact neTrue_eq_false hq
    rw [msCond, hNA, hDash, hsp]
    rfl

/-- Output analysis of the rules that follow currency stripping. -/
theorem stage3_out (v : Bool) (b : List Char)
    (hb1 : ∀ c, b.head? = some c → (c == '"') = false)
    (hb2 : ∀ c, b.getLast? = some c → (c == '"') = false)
    (hb3 : b.all (fun c => !(c == '$' || c == ',')) = true ∨ numericLike b = false) :
    missingRule (percentRule v (trailingMinus (parenNeg b))) = [] ∨
      CleanOut v (missingRule (percentRule v (trailingMinus (parenNeg b)))) := by
  by_cases hpn : pnCond b = true
  · have hinner : ((b.drop 1).dropLast) ≠ []
        ∧ ((b.drop 1).dropLast).all innerNumChar = true := by
      rw [pnCond] at hpn
      simp only [Bool.and_eq_true] at hpn
      constructor
      · intro hni
        have hx := hpn.1.2
        rw [hni] at hx
        exact absurd hx (by decide)
      · exact hpn.2
    have hpneq : parenNeg b = '-' :: (b.drop 1).dropLast := by
      rw [parenNeg, if_pos hpn]
    have hCO : CleanOut v ('-' :: (b.drop 1).dropLast) :=
      cleanOut_neg_shape v _ hinner.1 hinner.2
    have htm : trailingMinus ('-' :: (b.drop 1).dropLast)
        = '-' :: (b.drop 1).dropLast := by
      rw [trailingMinus, if_neg (false_ne_true hCO.2.2.2.2.1)]
    have hpc : percentRule v ('-' :: (b.drop 1).dropLast)
        = '-' :: (b.drop 1).dropLast := by
      rw [percentRule, if_neg (false_ne_true hCO.2.2.2.2.2.1)]
    have hms : missingRule ('-' :: (b.drop 1).dropLast)
        = '-' :: (b.drop 1).dropLast := by
      rw [missingRule, if_neg (false_ne_true hCO.2.2.2.2.2.2)]
    right
    rw [hpneq, htm, hpc, hms]
    exact hCO
  · have hpneq : parenNeg b = b := by rw [parenNeg, if_neg hpn]
    rw [hpneq]
    by_cases htm : tmCond b = true
    · have hbody : b.dropLast ≠ [] ∧ (b.dropLast).all innerNumChar = true := by
        rw [tmCond] at htm
        simp only [Bool.and_eq_true] at htm
        constructor
        · intro hni
          have hx := htm.1.2
          rw [hni] at hx
          exact absurd hx (by decide)
        · exact htm.2
      have htmeq : trailingMinus b = '-' :: b.dropLast := by
        rw [trailingMinus, if_pos htm]
      have hCO : CleanOut v ('-' :: b.dropLast) :=
        cleanOut_neg_shape v _ hbody.1 hbody.2
      have hpc : percentRule v ('-' :: b.dropLast) = '-' :: b.dropLast := by
        rw [percentRule, if_neg]
        simp [hCO.2.2.2.2.2.1]
      have hms : missingRule ('-' :: b.dropLast) = '-' :: b.dropLast := by
        rw [missingRule, if_neg]
        simp [hCO.2.2.2.2.2.2]
      right
      rw [htmeq, hpc, hms]
      exact hCO
    · have htmeq : trailingMinus b = b := by rw [trailingMinus, if_neg htm]
      rw [htmeq]
      by_cases hpc : pcCond v b = true
      · have hval : validDecimal b.dropLast = true := by
          rw [pcCond] at hpc
          simp only [Bool.and_eq_true] at hpc
          exact hpc.2
        have hpceq : percentRule v b = divByHundred b.dropLast := by
          rw [percentRule, if_pos hpc]
        obtain ⟨hallz, hhz, hlz⟩ := divByHundred_shape _ hval
        have hCO : CleanOut v (divByHundred b.dropLast) :=
          cleanOut_digit_shape v _ hallz hhz hlz
        have hms : missingRule (divByHundred b.dropLast)
            = divByHundred b.dropLast := by
          rw [missingRule, if_neg (false_ne_true hCO.2.2.2.2.2.2)]
        right
        rw [hpceq, hms]
        exact hCO
      · have hpceq : percentRule v b = b := by rw [percentRule, if_neg hpc]
        rw [hpceq]
        by_cases hms : msCond b = true
        · left
          rw [missingRule, if_pos hms]
        · right
          have hmseq : missingRule b = b := by rw [missingRule, if_neg hms]
          rw [hmseq]
          exact ⟨hb1, hb2, hb3, neTrue_eq_false hpn, neTrue_eq_false htm,
            neTrue_eq_false hpc, neTrue_eq_false hms⟩

/-- Every `cleanCell` output is empty or in the fixed-point shape. -/
theorem cleanCell_out (v : Bool) (s : List Char) :
    cleanCell v s = [] ∨ CleanOut v (cleanCell v s) := by
  rw [cleanCell]
  by_cases hnum : numericLike (stripQuotes s) = true
  · have hsc : stripCurrency (stripQuotes s)
        = (stripQuotes s).filter (fun c => !(c == '$' || c == ',')) := by
      rw [stripCurrency, if_pos hnum]
    rw [hsc]
    have hball : ∀ c ∈ (stripQuotes s).filter (fun c => !(c == '$' || c == ',')),
        allowedNumChar c = true := by
      intro c hc
      have hmem := List.mem_of_mem_filter hc
      rw [numericLike] at hnum
      simp only [Bool.and_eq_true] at hnum
      exact List.all_eq_true.1 hnum.1.2 c hmem
    refine stage3_out v _ ?_ ?_ (Or.inl ?_)
    · intro c hc
      exact allowed_not_quote c (hball c (mem_of_head?_eq hc))
    · intro c hc
      exact allowed_not_quote c (hball c (mem_of_getLast?_eq hc))
    · exact List.all_eq_true.2 (fun c hc => (List.mem_filter.1 hc).2)
  · have hsc : stripCurrency (stripQuotes s) = stripQuotes s := by
      rw [stripCurrency, if_neg hnum]
    rw [hsc]
    exact stage3_out v _ (fun c hc => stripQuotes_head s hc)
      (fun c hc => stripQuotes_last s hc) (Or.inr (neTrue_eq_false hnum))

theorem cleanCell_idem (v : Bool) (s : List Char) :
    cleanCell v (cleanCell v s) = cleanCell v s := by
  rcases cleanCell_out v s with h | h
  · rw [h]
    cases v <;> rfl
  · exact cleanCell_fix v _ h

theorem zipWith_idem {α β : Type _} (g : α → β → β)
    (hg : ∀ a b, g a (g a b) = g a b) :
    ∀ (h : List α) (r : List β),
      List.zipWith g h (List.zipWith g h r) = List.zipWith g h r
  | [], _ => by simp
  | _ :: _, [] => by simp
  | a :: t, b :: rb => by
    rw [List.zipWith_cons_cons, List.zipWith_cons_cons, hg,
      zipWith_idem g hg t rb]

/-- A `vacancy_q` cell holding a decimal numeral followed by `%` passes
rules 1-3 unchanged and is converted by rule 4 into the decimal fraction,
which rule 5 keeps. -/
theorem cleanCell_percent (body : List Char) (hv : validDecimal body = true) :
    cleanCell true (body ++ [ '%' ]) = divByHundred body := by
  have hv0 := hv
  rw [validDecimal] at hv0
  simp only [Bool.and_eq_true, decide_eq_true_eq] at hv0
  obtain ⟨⟨⟨hne, hall⟩, hany⟩, _⟩ := hv0
  have hbne : body ≠ [] := by
    intro h
    rw [h] at hne
    exact absurd hne (by decide)
  obtain ⟨h0, hh0⟩ := exists_head? body hbne
  have hh0n : innerNumChar h0 = true :=
    List.all_eq_true.1 hall h0 (mem_of_head?_eq hh0)
  have hhs : (body ++ [ '%' ]).head? = some h0 := by
    rw [List.head?_append, hh0]
    rfl
  have hgl : (body ++ [ '%' ]).getLast? = some '%' := by
    rw [List.getLast?_append]
    rfl
  have hsq : stripQuotes (body ++ [ '%' ]) = body ++ [ '%' ] := by
    refine stripQuotes_eq_self _ ?_ ?_
    · intro c hc
      rw [hhs] at hc
      injection hc with hc
      exact hc ▸ beq_false_of_pred innerNumChar '"' h0 hh0n (by decide)
    · intro c hc
      rw [hgl] at hc
      injection hc with hc
      exact hc ▸ (by decide : ('%' == '"') = false)
  have hnum : numericLike (body ++ [ '%' ]) = true := by
    rw [numericLike]
    have hE : (body ++ [ '%' ]).isEmpty = false := by
      cases body <;> rfl
    have hA : (body ++ [ '%' ]).all allowedNumChar = true := by
      refine List.all_eq_true.2 ?_
      intro c hc
      rcases List.mem_append.1 hc with hc | hc
      · exact innerNum_allowed c (List.all_eq_true.1 hall c hc)
      · rcases List.mem_cons.1 hc with rfl | hc
        · decide
        · simp at hc
    have hD : (body ++ [ '%' ]).any Char.isDigit = true := by
      obtain ⟨c, hcm, hcd⟩ := List.any_eq_true.1 hany
      exact List.any_eq_true.2 ⟨c, List.mem_append_left _ hcm, hcd⟩
    rw [hE, hA, hD]
    rfl
  have hscur : stripCurrency (body ++ [ '%' ]) = body ++ [ '%' ] := by
    rw [stripCurrency, if_pos hnum]
    refine List.filter_eq_self.2 ?_
    intro c hc
    rcases List.mem_append.1 hc with hc | hc
    · exact innerNum_keepF c (List.all_eq_true.1 hall c hc)
    · rcases List.mem_cons.1 hc with rfl | hc
      · decide
      · simp at hc
  have hpnc : pnCond (body ++ [ '%' ]) = false := by
    have hq : ((body ++ [ '%' ]).head? == some '(') = false := by
      rw [hhs]
      show (h0 == '(') = false
      exact beq_false_of_pred innerNumChar '(' h0 hh0n (by decide)
    rw [pnCond, hq]
    simp
  have hpneq : parenNeg (body ++ [ '%' ]) = body ++ [ '%' ] := by
    rw [parenNeg, if_neg (false_ne_true hpnc)]
  have htmc : tmCond (body ++ [ '%' ]) = false := by
    have hq : ((body ++ [ '%' ]).getLast? == some '-') = false := by
      rw [hgl]
      rfl
    rw [tmCond, hq]
    simp
  have htmeq : trailingMinus (body ++ [ '%' ]) = body ++ [ '%' ] := by
    rw [trailingMinus, if_neg (false_ne_true htmc)]
  have hpcc : pcCond true (body ++ [ '%' ]) = true := by
    rw [pcCond, List.dropLast_concat, hgl, hv]
    rfl
  have hperc : percentRule true (body ++ [ '%' ]) = divByHundred body := by
    rw [percentRule, if_pos hpcc, List.dropLast_concat]
  obtain ⟨hallz, hhz, hlz⟩ := divByHundred_shape body hv
  have hCO := cleanOut_digit_shape true (divByHundred body) hallz hhz hlz
  have hms : missingRule (divByHundred body) = divByHundred body := by
    rw [missingRule, if_neg (false_ne_true hCO.2.2.2.2.2.2)]
  rw [cleanCell, hsq, hscur, hpneq, htmeq, hperc, hms]

/-! ## Claim theorems -/

/-- C1, counterexample: a raw table whose first header cell is the empty
string (one of the "empty, missing, or a placeholder" cases of the claim)
is NOT repaired: the extracted CSV keeps the empty first header, because
pdf_tools.py line 37 only fires on `None` or a label containing `Unnamed`. -/
theorem C1_counterexample :
    extractTables [ [ [ [ some "", some "h" ], [ some "a", some "b" ] ] ] ]
        = [ ",h\na,b\n" ] ∧
    repairHeaders [ some "", some "h" ] = [ some "", some "h" ] := by
  exact ⟨by decide, rfl⟩

/-- C1, amended: when the first header cell is missing (`None`) or contains
the placeholder marker `Unnamed`, the repaired header row starts with
exactly `primary_submarket` (and every header equal to the first one is
renamed); an empty-string first header is left unchanged. -/
theorem C1_amended_repair (h0 : Cell) (rest : List Cell) (h : needsRepair h0 = true) :
    (repairHeaders (h0 :: rest)).head? = some (some "primary_submarket") ∧
    repairHeaders (h0 :: rest)
      = (h0 :: rest).map (fun c => if c = h0 then some "primary_submarket" else c) := by
  constructor
  · simp [repairHeaders, h]
  · simp [repairHeaders, h]

/-- C1, witness: the amended repair at the concrete header row
`[None, "x"]`. -/
theorem C1_witness :
    (repairHeaders [ none, some "x" ]).head? = some (some "primary_submarket") :=
  (C1_amended_repair none [ some "x" ] (by decide)).1

/-- C2, counterexample: for a filesystem with no document at the path, the
extractor returns `[]`, the very same value a successful run on a readable
zero-table document returns; the tool has no error alternative in its
return type, so the failure is reported as an empty success value and no
`DocumentAccessError` exists. -/
theorem C2_counterexample :
    PDFTableExtractorTool_run emptyFS "missing.pdf" = ([] : List String) ∧
    PDFTableExtractorTool_run zeroTableFS "doc.pdf" = ([] : List String) := by
  exact ⟨rfl, rfl⟩

/-- C2, amended: for every document path that is missing or unreadable
(empty path, or no document readable at the path), extraction returns the
empty list — an empty success value indistinguishable from a document with
no tables — rather than failing with a typed `DocumentAccessError`. -/
theorem C2_amended_empty_on_failure (fs : String → Option Document) (path : String)
    (h : path = "" ∨ fs path = none) : PDFTableExtractorTool_run fs path = [] := by
  rcases h with h | h
  · simp [PDFTableExtractorTool_run, h]
  · by_cases hp : path = ""
    · simp [PDFTableExtractorTool_run, hp]
    · simp [PDFTableExtractorTool_run, hp, h]

/-- C2, witness: the amended statement at a concrete missing path. -/
theorem C2_witness : PDFTableExtractorTool_run emptyFS "x.pdf" = [] :=
  C2_amended_empty_on_failure emptyFS "x.pdf" (Or.inr rfl)

/-- C3: the Value Cleaner is idempotent — cleaning an already-cleaned
mapped table changes nothing (per-cell, the output of the five rules is a
fixed point of the five rules). -/
theorem C3_cleaner_idempotent (t : MappedTable) :
    cleanTable (cleanTable t) = cleanTable t := by
  show MappedTable.mk t.header ((t.rows.map (cleanRow t.header)).map (cleanRow t.header))
      = MappedTable.mk t.header (t.rows.map (cleanRow t.header))
  congr 1
  rw [List.map_map]
  refine List.map_congr_left ?_
  intro r _
  exact zipWith_idem _ (fun a b => cleanCell_idem (a == "vacancy_q") b) t.header r

/-- C3, witness: idempotence applied at a concrete mapped table. -/
theorem C3_witness :
    cleanTable (cleanTable (MappedTable.mk [ "primary_submarket", "vacancy_q" ]
        [ [ String.toList "(1,234)", String.toList "5.4%" ] ]))
      = cleanTable (MappedTable.mk [ "primary_submarket", "vacancy_q" ]
        [ [ String.toList "(1,234)", String.toList "5.4%" ] ]) :=
  C3_cleaner_idempotent
    (MappedTable.mk [ "primary_submarket", "vacancy_q" ]
      [ [ String.toList "(1,234)", String.toList "5.4%" ] ])

/-- C5: cleaning a `vacancy_q` percentage cell yields the decimal
fraction: in general a decimal numeral followed by `%` becomes that
numeral divided by 100, and in particular `5.4%` becomes `0.054` and
`12%` becomes `0.12`. -/
theorem C5_percent_conversion :
    (∀ body, validDecimal body = true →
      cleanCell true (body ++ [ '%' ]) = divByHundred body) ∧
    cleanCell true (String.toList "5.4%") = String.toList "0.054" ∧
    cleanCell true (String.toList "12%") = String.toList "0.12" := by
  refine ⟨fun body hv => cleanCell_percent body hv, by decide, by decide⟩

/-- C5, witness: the universally quantified part applied at `7%`. -/
theorem C5_witness :
    cleanCell true (String.toList "7%") = divByHundred (String.toList "7") ∧
    divByHundred (String.toList "7") = String.toList "0.07" :=
  ⟨C5_percent_conversion.1 (String.toList "7") (by decide), by decide⟩

/-- C4: when `primary_submarket` occurs in the input, the finalizer
succeeds with the text from the first occurrence on (fences removed,
stripped) and the result still starts with `primary_submarket`; when the
token does not occur, it fails with the header-not-found error. -/
theorem C4_finalizer (g : List Char) :
    (∀ i, firstOcc headerTok g = some i →
      FinalOutputTool_run g = Except.ok (pyStrip (removeFences (g.drop i))) ∧
        headerTok.isPrefixOf (pyStrip (removeFences (g.drop i))) = true) ∧
    (firstOcc headerTok g = none →
      FinalOutputTool_run g = Except.error headerNotFoundMsg) := by
  constructor
  · intro i hi
    exact ⟨by simp [FinalOutputTool_run, hi], headerTok_prefix_final g i hi⟩
  · intro hn
    simp [FinalOutputTool_run, hn]

/-- C4, witness: a concrete input with preamble and code fences. -/
theorem C4_witness :
    FinalOutputTool_run (String.toList "xx ```primary_submarket,a``` ")
        = Except.ok (String.toList "primary_submarket,a") ∧
    headerTok.isPrefixOf (String.toList "primary_submarket,a") = true := by
  have h := (C4_finalizer (String.toList "xx ```primary_submarket,a``` ")).1 6 (by decide)
  have he : pyStrip (removeFences ((String.toList "xx ```primary_submarket,a``` ").drop 6))
      = String.toList "primary_submarket,a" := by decide
  exact ⟨h.1.trans (by rw [he]), by rw [← he]; exact h.2⟩

/-- C6: a structurally-detected table yields an output CSV if and only if
it has at least 2 rows — the extracted list is exactly the rendering of
the at-least-2-row tables, in order. -/
theorem C6_two_row_filter (doc : Document) :
    extractTables doc
      = ((doc.flatten).filter (fun t => decide (2 ≤ t.length))).map tableToCSV := by
  have hk : keepGuard = (fun t : RawTable => decide (2 ≤ t.length)) :=
    funext keepGuard_eq
  rw [extractTables_eq_flatten, List.filter_flatten, List.map_flatten, List.map_map, hk]
  rfl

/-- C7, counterexample: on the same candidate set of two structurally
equal candidates, the selector result is whatever the oracle response
dictates: one run returns the (shared) candidate value, another run, with
a digit-free oracle response, returns an error — not the earlier
candidate.  The choice is a function of the oracle response, not of
document order, so it is not identical across repeated runs. -/
theorem C7_counterexample :
    TableSelectorTool_run [ "t", "t" ] (String.toList "1") = Except.ok "t" ∧
    TableSelectorTool_run [ "t", "t" ] (String.toList "pick the best one")
        = Except.error couldNotDetermineMsg ∧
    TableSelectorTool_run [ "t", "t" ] (String.toList "pick the best one")
        ≠ Except.ok "t" := by
  refine ⟨rfl, rfl, ?_⟩
  intro hcon
  have h : Except.error couldNotDetermineMsg = Except.ok ("t" : String) := hcon
  cases h

/-- C7, amended: the selector has no document-order tie-break of its own;
it returns the candidate at the oracle-chosen index.  For a candidate set
of two structurally-equal candidates, every successful selection returns a
value equal to the earlier candidate, but an unparseable or out-of-range
oracle response yields an error instead. -/
theorem C7_amended_equal_candidates (t : String) (resp : List Char) (out : String)
    (h : TableSelectorTool_run [t, t] resp = Except.ok out) : out = t := by
  cases hp : selectorParse resp with
  | none => simp [TableSelectorTool_run, hp] at h
  | some n =>
    simp only [TableSelectorTool_run, hp] at h
    by_cases hc : 0 ≤ (n : Int) - 1 ∧ (n : Int) - 1 < (([t, t] : List String).length : Int)
    · rw [dif_pos hc] at h
      injection h with h
      have hm : out ∈ [t, t] := h ▸ List.get_mem _ _ _
      simpa using hm
    · rw [dif_neg hc] at h
      exact absurd h (by simp)

/-- C7, witness: the amended statement at a concrete equal-candidate set. -/
theorem C7_witness : ("x" : String) = "x" :=
  C7_amended_equal_candidates "x" (String.toList "2") "x" rfl

/-- C8: the controller performs at most `max_iterations` (15) stage
invocations; when the budget is exhausted the run terminates with the
LangChain stop message, which the caller-side validation maps to `none`
(a failure), and no empty or non-header output is ever accepted as a
success. -/
theorem C8_controller_budget (step : Nat → Option (List Char)) :
    (agentRun step max_iterations 0).2 ≤ max_iterations ∧
    ((∀ i, i < max_iterations → step i = none) →
      (agentRun step max_iterations 0).1 = stopMessage ∧
        process_pdf_with_agent stopMessage = none) ∧
    process_pdf_with_agent [] = none ∧
    (∀ s out, process_pdf_with_agent s = some out →
      headerTok.isPrefixOf (pyStrip s) = true ∧ out = s) := by
  refine ⟨by simpa using agentRun_count step max_iterations 0, ?_, rfl, ?_⟩
  · intro h
    refine ⟨agentRun_exhaust step max_iterations 0 (fun i _ h2 => h i (by omega)), ?_⟩
    decide
  · intro s out h
    rw [process_pdf_with_agent] at h
    by_cases hc : (!s.isEmpty && headerTok.isPrefixOf (pyStrip s)) = true
    · rw [if_pos hc] at h
      injection h with h
      simp only [Bool.and_eq_true] at hc
      exact ⟨hc.2, h.symm⟩
    · rw [if_neg hc] at h
      exact absurd h (by simp)

/-- C8, witness: a step function that never finishes exhausts the budget
and yields the stop message with exactly 15 invocations. -/
theorem C8_witness :
    (agentRun (fun _ => none) max_iterations 0).2 ≤ max_iterations ∧
    (agentRun (fun _ => none) max_iterations 0).1 = stopMessage := by
  have h := C8_controller_budget (fun _ => none)
  exact ⟨h.1, (h.2.1 (fun i _ => rfl)).1⟩

/-- C9: extraction returns the candidate CSVs in page order and, within a
page, table order (the flatten of the per-page lists), and selection
consumes that sequence positionally: an in-range oracle answer `n` selects
element `n - 1` of the sequence exactly as handed over. -/
theorem C9_order_preserved (doc : Document) :
    extractTables doc
      = (doc.map (fun page => (page.filter keepGuard).map tableToCSV)).flatten ∧
    (∀ (tables : List String) (resp : List Char) (n : Nat),
      selectorParse resp = some n → 1 ≤ n → ∀ (h : n - 1 < tables.length),
        TableSelectorTool_run tables resp = Except.ok (tables.get ⟨n - 1, h⟩)) := by
  refine ⟨extractTables_eq_flatten doc, ?_⟩
  intro tables resp n hp h1 h
  have h0 : (0 : Int) ≤ (n : Int) - 1 := by omega
  have h2 : (n : Int) - 1 < (tables.length : Int) := by omega
  simp only [TableSelectorTool_run, hp]
  rw [dif_pos ⟨h0, h2⟩]
  congr 1
  apply congrArg
  apply Fin.ext
  show ((n : Int) - 1).toNat = n - 1
  omega

/-- C9, witness: the positional-selection part at a concrete list. -/
theorem C9_witness :
    TableSelectorTool_run [ "a", "b", "c" ] (String.toList "2") = Except.ok "b" := by
  have h := (C9_order_preserved []).2 [ "a", "b", "c" ] (String.toList "2") 2
    (by decide) (by decide) (by decide)
  exact h.trans rfl

/-- C10: the selector never fabricates a table — every successful result
is an element of the input list (the one at the parsed index), and every
unparseable or out-of-range oracle response produces an error result. -/
theorem C10_result_in_input (tables : List String) (resp : List Char) :
    (∀ out, TableSelectorTool_run tables resp = Except.ok out → out ∈ tables) ∧
    (selectorParse resp = none →
      TableSelectorTool_run tables resp = Except.error couldNotDetermineMsg) ∧
    (∀ n, selectorParse resp = some n → ¬(1 ≤ n ∧ n ≤ tables.length) →
      TableSelectorTool_run tables resp = Except.error invalidNumberMsg) := by
  refine ⟨?_, ?_, ?_⟩
  · intro out hout
    cases hp : selectorParse resp with
    | none => simp [TableSelectorTool_run, hp] at hout
    | some n =>
      simp only [TableSelectorTool_run, hp] at hout
      by_cases hc : 0 ≤ (n : Int) - 1 ∧ (n : Int) - 1 < (tables.length : Int)
      · rw [dif_pos hc] at hout
        injection hout with hout
        exact hout ▸ List.get_mem _ _ _
      · rw [dif_neg hc] at hout
        exact absurd hout (by simp)
  · intro hp
    simp [TableSelectorTool_run, hp]
  · intro n hp hn
    simp only [TableSelectorTool_run, hp]
    rw [dif_neg (by omega)]

/-- C10, witness: a successful selection at a concrete list is a member of
the list. -/
theorem C10_witness : ("b" : String) ∈ [ "a", "b" ] :=
  (C10_result_in_input [ "a", "b" ] (String.toList "2")).1 "b" rfl

end PdfProc
